import Mathlib

/-!
Formal model of the DSTU 7564 "Kupyna" hash engine of this repository.

The repository ships the public header `src/native/include/kupyna.h` (the
return codes and the five API entry points) together with two C test
drivers; the C file with the engine bodies is not present under `src/`.
The engine bodies below are therefore modelled from the specification's
component contracts (data model, substitution / shift-rows / diffusion
layers, permutations P and Q, compression, padding, output transformation,
streaming state machine, one-shot wrapper); every definition whose doc
comment starts with `Modelled from the spec:` marks such a place.

Bytes are natural numbers, byte sequences are lists of naturals, and a
state matrix is kept in column-major flat form (flat index `k` holds the
byte of row `k % 8`, column `k / 8`), as the spec's data model prescribes.
-/

namespace Kupyna

/-- Return code for success, from `kupyna.h`. -/
def KUPYNA_OK : Int := 0

/-- Return code for a null context pointer, from `kupyna.h`. -/
def KUPYNA_ERROR_NULL_CTX : Int := -1

/-- Return code for an invalid digest length, from `kupyna.h`. -/
def KUPYNA_ERROR_INVALID_LEN : Int := -2

/-- Return code for use of an uninitialized context, from `kupyna.h`. -/
def KUPYNA_ERROR_NOT_INIT : Int := -3

/-- Return code for allocation failure, from `kupyna.h`. -/
def KUPYNA_ERROR_ALLOC : Int := -4

/-- Modelled from the spec: the number of state columns determined by the
digest width — 8 columns (64-byte small state) for widths up to 32 bytes,
16 columns (128-byte large state) for widths 48 and 64. -/
def colsFor (hash_len : Nat) : Nat := if hash_len ≤ 32 then 8 else 16

/-- Modelled from the spec: the round count of the permutations — 10 rounds
for the small state, 14 for the large state. -/
def rounds (cols : Nat) : Nat := if cols = 8 then 10 else 14

/-- Modelled from the spec: one of the four fixed 256-entry substitution
tables, selected by `t`.  The spec fixes four byte-to-byte tables but the
table values themselves are not given by the available material (the
implementation file is missing); a representative total byte map is used.
No claim below depends on the table values. -/
def sboxTable (t b : Nat) : Nat := Nat.xor (b % 256) (29 * t + 63)

/-- Modelled from the spec: the substitution layer — each byte at row `r`,
column `c` is replaced through table `(r + c) % 4`. -/
def subBytes (cols : Nat) (s : List Nat) : List Nat :=
  (List.range (8 * cols)).map (fun k => sboxTable ((k % 8 + k / 8) % 4) (s.getD k 0))

/-- Modelled from the spec: the shift-rows offset schedule — row `r` is
rotated by an offset depending on `r` and the state shape; the small and
large shapes use distinct fixed schedules. -/
def shiftOffset (cols r : Nat) : Nat := if cols = 16 ∧ r = 7 then 11 else r

/-- Modelled from the spec: the shift-rows layer — row `r` of the state is
cyclically rotated left by `shiftOffset cols r`; a pure permutation of the
byte positions. -/
def shiftRows (cols : Nat) (s : List Nat) : List Nat :=
  (List.range (8 * cols)).map (fun k =>
    s.getD (8 * ((k / 8 + shiftOffset cols (k % 8)) % cols) + k % 8) 0)

/-- Modelled from the spec: the inverse of the shift-rows layer — each row
is rotated back by the complementary offset. -/
def shiftRowsInv (cols : Nat) (s : List Nat) : List Nat :=
  (List.range (8 * cols)).map (fun k =>
    s.getD (8 * ((k / 8 + (cols - shiftOffset cols (k % 8) % cols)) % cols) + k % 8) 0)

/-- Doubling in GF(2^8) with the reduction polynomial 0x11D. -/
def xtime (b : Nat) : Nat := if b < 128 then 2 * b else Nat.xor (2 * b) 0x11D

/-- Russian-peasant multiplication in GF(2^8), eight bit steps. -/
def gmulAux : Nat → Nat → Nat → Nat
  | 0, _, _ => 0
  | n + 1, a, b =>
      if a % 2 = 1 then Nat.xor b (gmulAux n (a / 2) (xtime b))
      else gmulAux n (a / 2) (xtime b)

/-- Multiplication in GF(2^8) over the fixed irreducible polynomial. -/
def gmul (a b : Nat) : Nat := gmulAux 8 a b

/-- Modelled from the spec: the generating row of the fixed 8×8 circulant
MDS diffusion matrix. -/
def mdsRow : List Nat := [1, 1, 5, 1, 8, 6, 7, 4]

/-- Entry of the circulant MDS matrix at row `r`, column `j`. -/
def mds (r j : Nat) : Nat := mdsRow.getD ((j + 8 - r % 8) % 8) 0

/-- Modelled from the spec: the diffusion layer — each 8-byte column is
left-multiplied by the MDS matrix over GF(2^8). -/
def mixColumns (cols : Nat) (s : List Nat) : List Nat :=
  (List.range (8 * cols)).map (fun k =>
    (List.range 8).foldl
      (fun acc j => Nat.xor acc (gmul (mds (k % 8) j) (s.getD (8 * (k / 8) + j) 0))) 0)

/-- Modelled from the spec: the XOR-style round-constant injection of
permutation P — round `i` XORs a constant derived from `i` and the column
index into the leading byte of every column. -/
def addConstP (cols i : Nat) (s : List Nat) : List Nat :=
  (List.range (8 * cols)).map (fun k =>
    if k % 8 = 0 then Nat.xor (s.getD k 0) (Nat.xor (16 * (k / 8)) i) else s.getD k 0)

/-- A state column read as a little-endian 64-bit integer (bytes clipped
to their low eight bits). -/
def colToNat (s : List Nat) (c : Nat) : Nat :=
  (List.range 8).foldr (fun r acc => s.getD (8 * c + r) 0 % 256 + 256 * acc) 0

/-- Modelled from the spec: the ADD-style round constant of permutation Q,
derived from the round index `i` and the column index `c` differently from
P's constants. -/
def constQ (cols i c : Nat) : Nat :=
  Nat.xor 0x00F0F0F0F0F0F0F3 (Nat.shiftLeft (Nat.xor (16 * (cols - 1 - c)) i) 56)

/-- Modelled from the spec: the ADD-style round-constant injection of
permutation Q — the constant is added to each column as a 64-bit integer
modulo 2^64. -/
def addConstQ (cols i : Nat) (s : List Nat) : List Nat :=
  (List.range (8 * cols)).map (fun k =>
    (colToNat s (k / 8) + constQ cols i (k / 8)) % 2 ^ 64 / 256 ^ (k % 8) % 256)

/-- Modelled from the spec: one round of permutation P — XOR round constant,
substitute, shift rows, diffuse. -/
def roundP (cols i : Nat) (s : List Nat) : List Nat :=
  mixColumns cols (shiftRows cols (subBytes cols (addConstP cols i s)))

/-- Modelled from the spec: one round of permutation Q — ADD round constant,
substitute, shift rows, diffuse. -/
def roundQ (cols i : Nat) (s : List Nat) : List Nat :=
  mixColumns cols (shiftRows cols (subBytes cols (addConstQ cols i s)))

/-- Modelled from the spec: permutation P — the fixed number of P-rounds in
order. -/
def permP (cols : Nat) (s : List Nat) : List Nat :=
  (List.range (rounds cols)).foldl (fun st i => roundP cols i st) s

/-- Modelled from the spec: permutation Q — the fixed number of Q-rounds in
order. -/
def permQ (cols : Nat) (s : List Nat) : List Nat :=
  (List.range (rounds cols)).foldl (fun st i => roundQ cols i st) s

/-- Bytewise XOR of two byte sequences of identical shape. -/
def xorBytes (a b : List Nat) : List Nat := List.zipWith Nat.xor a b

/-- Modelled from the spec: the compression function — the Davies-Meyer
style feed-forward `S ↦ P(S xor M) xor Q(M) xor S`. -/
def compress (cols : Nat) (s m : List Nat) : List Nat :=
  xorBytes (xorBytes (permP cols (xorBytes s m)) (permQ cols m)) s

/-- Fold the compression function over a message, one block (8·cols bytes)
at a time. -/
def foldBlocks (cols : Nat) (s msg : List Nat) : List Nat :=
  if h : msg = [] ∨ cols = 0 then s
  else foldBlocks cols (compress cols s (msg.take (8 * cols))) (msg.drop (8 * cols))
termination_by msg.length
decreasing_by
  have h1 : msg ≠ [] := fun hm => h (Or.inl hm)
  have h2 : cols ≠ 0 := fun hc => h (Or.inr hc)
  have h3 : 0 < msg.length := List.length_pos.mpr h1
  simp only [List.length_drop]
  omega

/-- Modelled from the spec: the standard's seeding rule — the state starts
all zero except one byte of the first column encoding the state byte size. -/
def initState (cols : Nat) : List Nat :=
  (List.range (8 * cols)).map (fun k => if k = 0 then 8 * cols else 0)

/-- Modelled from the spec: the fixed-width bit-length field closing the
padding — 8 bytes on the small state, 16 on the large, holding the total
bit length `8 · total` little-endian. -/
def lengthField (cols total : Nat) : List Nat :=
  (List.range cols).map (fun j => 8 * total / 256 ^ j % 256)

/-- Modelled from the spec: the padding appended after the final `r`
pending bytes of a message of `total` bytes — a single 0x80 marker, zero
fill, and the bit-length field, spilling into a second block when marker
plus length field do not fit. -/
def padTail (cols total r : Nat) : List Nat :=
  0x80 ::
    List.replicate
      (if r + 1 + cols ≤ 8 * cols then 8 * cols - r - 1 - cols
       else 2 * (8 * cols) - r - 1 - cols) 0 ++
    lengthField cols total

/-- Lifecycle stage of a context, per the spec's state machine. -/
inductive KupynaStatus where
  | uninitialized
  | initialized
  | finalized
deriving DecidableEq

/-- Modelled from the spec: the streaming context — lifecycle flag, digest
width, state shape, running state, pending-bytes buffer, and the running
total input length in bytes. -/
structure KupynaCtx where
  status : KupynaStatus
  hash_len : Nat
  cols : Nat
  state : List Nat
  buffer : List Nat
  total : Nat
deriving DecidableEq

/-- Modelled from the spec: allocation yields an uninitialized context. -/
def kupyna_alloc : KupynaCtx :=
  ⟨KupynaStatus.uninitialized, 0, 0, [], [], 0⟩

/-- Modelled from the spec: `kupyna_init` — accepts widths 32, 48, 64 only,
selects the state shape, seeds the state, zeroes buffer and counter; on an
invalid width it fails leaving the context unchanged; a null context is
reported as such. -/
def kupyna_init (octx : Option KupynaCtx) (hash_len : Nat) :
    Int × Option KupynaCtx :=
  match octx with
  | none => (KUPYNA_ERROR_NULL_CTX, none)
  | some ctx =>
      if hash_len = 32 ∨ hash_len = 48 ∨ hash_len = 64 then
        (KUPYNA_OK,
          some ⟨KupynaStatus.initialized, hash_len, colsFor hash_len,
                initState (colsFor hash_len), [], 0⟩)
      else (KUPYNA_ERROR_INVALID_LEN, some ctx)

/-- Modelled from the spec: the data-absorbing core of `kupyna_update` —
append the new bytes to the pending buffer, compress every full block as
it fills, keep the remainder, and advance the total byte counter. -/
def updateBytes (ctx : KupynaCtx) (data : List Nat) : KupynaCtx :=
  ⟨KupynaStatus.initialized, ctx.hash_len, ctx.cols,
    foldBlocks ctx.cols ctx.state
      ((ctx.buffer ++ data).take
        ((ctx.buffer ++ data).length - (ctx.buffer ++ data).length % (8 * ctx.cols))),
    (ctx.buffer ++ data).drop
      ((ctx.buffer ++ data).length - (ctx.buffer ++ data).length % (8 * ctx.cols)),
    ctx.total + data.length⟩

/-- Modelled from the spec: `kupyna_update` — valid only on an initialized
context; otherwise fails without touching the context. -/
def kupyna_update (octx : Option KupynaCtx) (data : List Nat) :
    Int × Option KupynaCtx :=
  match octx with
  | none => (KUPYNA_ERROR_NULL_CTX, none)
  | some ctx =>
      if ctx.status = KupynaStatus.initialized then
        (KUPYNA_OK, some (updateBytes ctx data))
      else (KUPYNA_ERROR_NOT_INIT, some ctx)

/-- Modelled from the spec: the digest computed at finalization — pad the
pending bytes, fold the final block(s), apply the output transformation
`Ω(S) = P(S) xor S` once, and keep the low-order `hash_len` bytes. -/
def finalizeCtx (ctx : KupynaCtx) : List Nat :=
  List.take ctx.hash_len
    (xorBytes
      (permP ctx.cols
        (foldBlocks ctx.cols ctx.state
          (ctx.buffer ++ padTail ctx.cols ctx.total ctx.buffer.length)))
      (foldBlocks ctx.cols ctx.state
        (ctx.buffer ++ padTail ctx.cols ctx.total ctx.buffer.length)))

/-- Modelled from the spec: `kupyna_final` — valid only on an initialized
context, writes the digest over the leading bytes of the caller's buffer,
and moves the context to the finalized stage; on failure the caller's
buffer is untouched. -/
def kupyna_final (octx : Option KupynaCtx) (buf : List Nat) :
    Int × Option KupynaCtx × List Nat :=
  match octx with
  | none => (KUPYNA_ERROR_NULL_CTX, none, buf)
  | some ctx =>
      if ctx.status = KupynaStatus.initialized then
        (KUPYNA_OK,
          some ⟨KupynaStatus.finalized, ctx.hash_len, ctx.cols, ctx.state,
                ctx.buffer, ctx.total⟩,
          finalizeCtx ctx ++ buf.drop ctx.hash_len)
      else (KUPYNA_ERROR_NOT_INIT, some ctx, buf)

/-- Modelled from the spec: `kupyna_free` — releases the context from any
stage. -/
def kupyna_free (_octx : Option KupynaCtx) : Option KupynaCtx := none

/-- Modelled from the spec: the whole-message digest — seed the state, fold
the compression function over the padded message, apply the output
transformation once, truncate to the digest width. -/
def kupynaDigest (hash_len : Nat) (data : List Nat) : List Nat :=
  List.take hash_len
    (xorBytes
      (permP (colsFor hash_len)
        (foldBlocks (colsFor hash_len) (initState (colsFor hash_len))
          (data ++ padTail (colsFor hash_len) data.length
            (data.length % (8 * colsFor hash_len)))))
      (foldBlocks (colsFor hash_len) (initState (colsFor hash_len))
        (data ++ padTail (colsFor hash_len) data.length
          (data.length % (8 * colsFor hash_len)))))

/-- Modelled from the spec: `kupyna_hash` — the one-shot entry point;
validates the digest width, then computes the whole-message digest and
writes it over the leading bytes of the caller's buffer. -/
def kupyna_hash (data : List Nat) (hash_len : Nat) (buf : List Nat) :
    Int × List Nat :=
  if hash_len = 32 ∨ hash_len = 48 ∨ hash_len = 64 then
    (KUPYNA_OK, kupynaDigest hash_len data ++ buf.drop hash_len)
  else (KUPYNA_ERROR_INVALID_LEN, buf)

/-- The composed sequence `alloc; init(width); update(data); final(out);
free` with the first error propagated, exactly as the spec's one-shot
contract prescribes; the context never escapes. -/
def composedHash (data : List Nat) (hash_len : Nat) (buf : List Nat) :
    Int × List Nat :=
  if (kupyna_init (some kupyna_alloc) hash_len).1 ≠ KUPYNA_OK then
    ((kupyna_init (some kupyna_alloc) hash_len).1, buf)
  else
    if (kupyna_update (kupyna_init (some kupyna_alloc) hash_len).2 data).1
        ≠ KUPYNA_OK then
      ((kupyna_update (kupyna_init (some kupyna_alloc) hash_len).2 data).1, buf)
    else
      ((kupyna_final
          (kupyna_update (kupyna_init (some kupyna_alloc) hash_len).2 data).2
          buf).1,
        (kupyna_final
          (kupyna_update (kupyna_init (some kupyna_alloc) hash_len).2 data).2
          buf).2.2)

/-- The streaming run `init; update once per piece, in order; final`,
returning the final call's code and the caller's buffer after the run. -/
def streamHash (hash_len : Nat) (pieces : List (List Nat)) (buf : List Nat) :
    Int × List Nat :=
  ((kupyna_final
      (pieces.foldl (fun oc p => (kupyna_update oc p).2)
        (kupyna_init (some kupyna_alloc) hash_len).2)
      buf).1,
    (kupyna_final
      (pieces.foldl (fun oc p => (kupyna_update oc p).2)
        (kupyna_init (some kupyna_alloc) hash_len).2)
      buf).2.2)

/-- The context reached after initializing at width `hash_len` and absorbing
the byte stream `stream`: the state has folded every full block, the buffer
holds the remainder, the counter holds the stream length. -/
def ctxOf (hash_len : Nat) (stream : List Nat) : KupynaCtx :=
  ⟨KupynaStatus.initialized, hash_len, colsFor hash_len,
    foldBlocks (colsFor hash_len) (initState (colsFor hash_len))
      (stream.take (stream.length - stream.length % (8 * colsFor hash_len))),
    stream.drop (stream.length - stream.length % (8 * colsFor hash_len)),
    stream.length⟩

/-! Helper lemmas about the model.  These are shared infrastructure; the
claim theorems at the end of the file build on them. -/

theorem foldBlocks_nil (cols : Nat) (s : List Nat) :
    foldBlocks cols s [] = s := by
  rw [foldBlocks]
  simp

theorem foldBlocks_step (cols : Nat) (s msg : List Nat) (h1 : msg ≠ [])
    (h2 : cols ≠ 0) :
    foldBlocks cols s msg =
      foldBlocks cols (compress cols s (msg.take (8 * cols)))
        (msg.drop (8 * cols)) := by
  rw [foldBlocks]
  simp [h1, h2]

theorem foldBlocks_append (n : Nat) :
    ∀ (cols : Nat) (x : List Nat), x.length = n → 8 * cols ∣ n →
      ∀ (s y : List Nat),
        foldBlocks cols s (x ++ y) = foldBlocks cols (foldBlocks cols s x) y := by
  induction n using Nat.strong_induction_on with
  | _ n ih =>
    intro cols x hxn hdvd s y
    rcases eq_or_ne x [] with rfl | hx
    · simp [foldBlocks_nil]
    · rcases eq_or_ne cols 0 with rfl | hc
      · exfalso
        have hn0 : n = 0 := Nat.eq_zero_of_zero_dvd (by simpa using hdvd)
        exact hx (List.eq_nil_of_length_eq_zero (hxn.trans hn0))
      · have hlen : 0 < x.length := List.length_pos.mpr hx
        have hge : 8 * cols ≤ x.length :=
          Nat.le_of_dvd hlen (hxn ▸ hdvd)
        have hbs : 0 < 8 * cols := by omega
        rw [foldBlocks_step cols s (x ++ y) (by simp [hx]) hc,
          foldBlocks_step cols s x hx hc,
          List.take_append_of_le_length hge,
          List.drop_append_of_le_length hge]
        exact ih (x.drop (8 * cols)).length
          (by simp only [List.length_drop]; omega) cols (x.drop (8 * cols)) rfl
          (by simp only [List.length_drop, hxn]
              exact Nat.dvd_sub' (hxn ▸ hdvd) dvd_rfl)
          (compress cols s (x.take (8 * cols))) y

theorem length_mixColumns (cols : Nat) (s : List Nat) :
    (mixColumns cols s).length = 8 * cols := by
  simp [mixColumns]

theorem length_roundP (cols i : Nat) (s : List Nat) :
    (roundP cols i s).length = 8 * cols := by
  simp [roundP, length_mixColumns]

theorem length_roundQ (cols i : Nat) (s : List Nat) :
    (roundQ cols i s).length = 8 * cols := by
  simp [roundQ, length_mixColumns]

theorem length_foldl_rounds (n : Nat) (f : Nat → List Nat → List Nat)
    (hf : ∀ i st, (f i st).length = n) :
    ∀ (l : List Nat) (s : List Nat), l ≠ [] →
      (l.foldl (fun st i => f i st) s).length = n := by
  intro l
  induction l with
  | nil => intro s h; exact absurd rfl h
  | cons a t iht =>
    intro s _
    rcases eq_or_ne t [] with rfl | ht
    · simpa using hf a s
    · simpa using iht (f a s) ht

theorem rounds_pos (cols : Nat) : 0 < rounds cols := by
  unfold rounds
  split <;> omega

theorem length_permP (cols : Nat) (s : List Nat) :
    (permP cols s).length = 8 * cols := by
  refine length_foldl_rounds (8 * cols) (roundP cols) (length_roundP cols)
    (List.range (rounds cols)) s ?_
  have := rounds_pos cols
  simp only [ne_eq, List.range_eq_nil]
  omega

theorem length_permQ (cols : Nat) (s : List Nat) :
    (permQ cols s).length = 8 * cols := by
  refine length_foldl_rounds (8 * cols) (roundQ cols) (length_roundQ cols)
    (List.range (rounds cols)) s ?_
  have := rounds_pos cols
  simp only [ne_eq, List.range_eq_nil]
  omega

theorem length_xorBytes (a b : List Nat) :
    (xorBytes a b).length = min a.length b.length := by
  simp [xorBytes]

theorem length_compress (cols : Nat) (s m : List Nat)
    (hs : s.length = 8 * cols) :
    (compress cols s m).length = 8 * cols := by
  simp [compress, length_xorBytes, length_permP, length_permQ, hs]

theorem length_foldBlocks (n : Nat) :
    ∀ (cols : Nat) (s msg : List Nat), msg.length = n →
      s.length = 8 * cols → (foldBlocks cols s msg).length = 8 * cols := by
  induction n using Nat.strong_induction_on with
  | _ n ih =>
    intro cols s msg hmn hs
    rcases eq_or_ne msg [] with rfl | hm
    · simpa [foldBlocks_nil]
    · rcases eq_or_ne cols 0 with rfl | hc
      · rw [foldBlocks]
        simpa using hs
      · have hlen : 0 < msg.length := List.length_pos.mpr hm
        rw [foldBlocks_step cols s msg hm hc]
        exact ih (msg.drop (8 * cols)).length
          (by simp only [List.length_drop]; omega)
          cols _ _ rfl (length_compress cols s _ hs)

theorem colsFor_cases (w : Nat) : colsFor w = 8 ∨ colsFor w = 16 := by
  unfold colsFor
  split <;> simp

theorem bs_pos (w : Nat) : 0 < 8 * colsFor w := by
  rcases colsFor_cases w with h | h <;> omega

theorem ctxOf_nil (w : Nat) :
    ctxOf w [] =
      ⟨KupynaStatus.initialized, w, colsFor w, initState (colsFor w), [], 0⟩ := by
  simp [ctxOf, foldBlocks_nil]

theorem kupyna_init_valid (ctx : KupynaCtx) (w : Nat)
    (hw : w = 32 ∨ w = 48 ∨ w = 64) :
    kupyna_init (some ctx) w = (KUPYNA_OK, some (ctxOf w [])) := by
  simp [kupyna_init, hw, ctxOf_nil]

theorem add_mod_left_cancel (n m b : Nat) : (n + m) % b = (n % b + m) % b := by
  conv_lhs => rw [Nat.add_mod]
  conv_rhs => rw [Nat.add_mod, Nat.mod_mod_of_dvd _ dvd_rfl]

theorem updateBytes_ctxOf (w : Nat) (st d : List Nat) :
    updateBytes (ctxOf w st) d = ctxOf w (st ++ d) := by
  have hbs : 0 < 8 * colsFor w := bs_pos w
  have hmod_le : st.length % (8 * colsFor w) ≤ st.length :=
    Nat.mod_le _ _
  have hdam := Nat.div_add_mod st.length (8 * colsFor w)
  have hkdvd : 8 * colsFor w ∣ (st.length - st.length % (8 * colsFor w)) :=
    ⟨st.length / (8 * colsFor w), by omega⟩
  have hktake :
      (st.take (st.length - st.length % (8 * colsFor w))).length =
        st.length - st.length % (8 * colsFor w) := by
    rw [List.length_take]; omega
  have hsplit :
      st ++ d =
        st.take (st.length - st.length % (8 * colsFor w)) ++
          (st.drop (st.length - st.length % (8 * colsFor w)) ++ d) := by
    rw [← List.append_assoc, List.take_append_drop]
  have hlenB :
      (st.drop (st.length - st.length % (8 * colsFor w)) ++ d).length =
        st.length % (8 * colsFor w) + d.length := by
    simp only [List.length_append, List.length_drop]; omega
  have hmodeq :
      (st.length + d.length) % (8 * colsFor w) =
        (st.length % (8 * colsFor w) + d.length) % (8 * colsFor w) :=
    add_mod_left_cancel _ _ _
  have hmodB_le :
      (st.length % (8 * colsFor w) + d.length) % (8 * colsFor w) ≤
        st.length % (8 * colsFor w) + d.length :=
    Nat.mod_le _ _
  have hK :
      (st ++ d).length - (st ++ d).length % (8 * colsFor w) =
        (st.take (st.length - st.length % (8 * colsFor w))).length +
          ((st.drop (st.length - st.length % (8 * colsFor w)) ++ d).length -
            (st.drop (st.length - st.length % (8 * colsFor w)) ++ d).length %
              (8 * colsFor w)) := by
    rw [hktake, hlenB, List.length_append]
    omega
  have hkdvd2 :
      8 * colsFor w ∣
        (st.take (st.length - st.length % (8 * colsFor w))).length := by
    rw [hktake]; exact hkdvd
  simp only [updateBytes, ctxOf, KupynaCtx.mk.injEq]
  refine ⟨trivial, trivial, trivial, ?_, ?_, by simp⟩
  · conv_rhs => rw [hK, hsplit, List.take_append]
    rw [foldBlocks_append
      (st.take (st.length - st.length % (8 * colsFor w))).length (colsFor w)
      _ rfl hkdvd2]
  · conv_rhs => rw [hK, hsplit, List.drop_append]

theorem kupyna_update_ctxOf (w : Nat) (st d : List Nat) :
    kupyna_update (some (ctxOf w st)) d = (KUPYNA_OK, some (ctxOf w (st ++ d))) := by
  have hst : (ctxOf w st).status = KupynaStatus.initialized := rfl
  simp [kupyna_update, hst, updateBytes_ctxOf w st d]

theorem foldl_update_ctxOf (w : Nat) :
    ∀ (pieces : List (List Nat)) (st : List Nat),
      pieces.foldl (fun oc p => (kupyna_update oc p).2) (some (ctxOf w st)) =
        some (ctxOf w (st ++ pieces.flatten)) := by
  intro pieces
  induction pieces with
  | nil => intro st; simp
  | cons p t ih =>
    intro st
    simp only [List.foldl_cons, kupyna_update_ctxOf w st p, List.flatten_cons]
    rw [ih (st ++ p), List.append_assoc]

theorem finalizeCtx_ctxOf (w : Nat) (st : List Nat) :
    finalizeCtx (ctxOf w st) = kupynaDigest w st := by
  have hbs : 0 < 8 * colsFor w := bs_pos w
  have hmod_le : st.length % (8 * colsFor w) ≤ st.length := Nat.mod_le _ _
  have hdam := Nat.div_add_mod st.length (8 * colsFor w)
  have hkdvd : 8 * colsFor w ∣ (st.length - st.length % (8 * colsFor w)) :=
    ⟨st.length / (8 * colsFor w), by omega⟩
  have hktake :
      (st.take (st.length - st.length % (8 * colsFor w))).length =
        st.length - st.length % (8 * colsFor w) := by
    rw [List.length_take]; omega
  have hdroplen :
      (st.drop (st.length - st.length % (8 * colsFor w))).length =
        st.length % (8 * colsFor w) := by
    rw [List.length_drop]; omega
  have hfold :
      foldBlocks (colsFor w)
          (foldBlocks (colsFor w) (initState (colsFor w))
            (st.take (st.length - st.length % (8 * colsFor w))))
          (st.drop (st.length - st.length % (8 * colsFor w)) ++
            padTail (colsFor w) st.length (st.length % (8 * colsFor w))) =
        foldBlocks (colsFor w) (initState (colsFor w))
          (st ++ padTail (colsFor w) st.length (st.length % (8 * colsFor w))) := by
    have hkdvd2 :
        8 * colsFor w ∣
          (st.take (st.length - st.length % (8 * colsFor w))).length := by
      rw [hktake]; exact hkdvd
    rw [← foldBlocks_append
      (st.take (st.length - st.length % (8 * colsFor w))).length (colsFor w)
      _ rfl hkdvd2, ← List.append_assoc, List.take_append_drop]
  simp only [finalizeCtx, kupynaDigest, ctxOf, hdroplen, hfold]

theorem getD_range_map (n : Nat) (f : Nat → Nat) (j : Nat) :
    ((List.range n).map f).getD j 0 = if j < n then f j else 0 := by
  rcases Nat.lt_or_ge j n with h | h
  · simp [List.getElem?_map, List.getElem?_range h, h]
  · have hlen : ((List.range n).map f).length ≤ j := by simpa using h
    simp [List.getElem?_eq_none hlen, Nat.not_lt.mpr h]

theorem length_initState (cols : Nat) :
    (initState cols).length = 8 * cols := by
  simp [initState]

theorem length_kupynaDigest (w : Nat) (hw : w = 32 ∨ w = 48 ∨ w = 64)
    (data : List Nat) :
    (kupynaDigest w data).length = w := by
  have hX := length_foldBlocks
    (data ++ padTail (colsFor w) data.length (data.length % (8 * colsFor w))).length
    (colsFor w) (initState (colsFor w)) _ rfl (length_initState (colsFor w))
  simp only [kupynaDigest, List.length_take, length_xorBytes, length_permP, hX]
  rcases hw with rfl | rfl | rfl <;> norm_num [colsFor]

theorem kupyna_final_ctxOf_fst (w : Nat) (st buf : List Nat) :
    (kupyna_final (some (ctxOf w st)) buf).1 = KUPYNA_OK := by
  have hst : (ctxOf w st).status = KupynaStatus.initialized := rfl
  simp [kupyna_final, hst]

theorem kupyna_final_ctxOf_out (w : Nat) (st buf : List Nat) :
    (kupyna_final (some (ctxOf w st)) buf).2.2 =
      kupynaDigest w st ++ buf.drop w := by
  have hst : (ctxOf w st).status = KupynaStatus.initialized := rfl
  have hhl : (ctxOf w st).hash_len = w := rfl
  simp [kupyna_final, hst, hhl, finalizeCtx_ctxOf]

theorem kupyna_hash_eq_composedHash (data : List Nat) (w : Nat) (buf : List Nat) :
    kupyna_hash data w buf = composedHash data w buf := by
  by_cases hw : w = 32 ∨ w = 48 ∨ w = 64
  · have h0 : kupyna_init (some kupyna_alloc) w = (KUPYNA_OK, some (ctxOf w [])) :=
      kupyna_init_valid kupyna_alloc w hw
    simp [composedHash, kupyna_hash, hw, h0, kupyna_update_ctxOf,
      kupyna_final_ctxOf_fst, kupyna_final_ctxOf_out]
  · simp [composedHash, kupyna_hash, kupyna_init, hw, KUPYNA_OK,
      KUPYNA_ERROR_INVALID_LEN]

/-! Claim theorems. -/

/-- C1: for every state `S` held by an initialized context with an empty
pending buffer and every message block `M` of the same byte-size as the
state, absorbing `M` produces the next state `P(S xor M) xor Q(M) xor S`,
with bytewise XOR and the two round permutations `P`, `Q`. -/
theorem C1_compression_feed_forward (ctx : KupynaCtx) (M : List Nat)
    (_hst : ctx.status = KupynaStatus.initialized)
    (hbuf : ctx.buffer = [])
    (hc : ctx.cols ≠ 0)
    (hM : M.length = 8 * ctx.cols) :
    (updateBytes ctx M).state =
      xorBytes
        (xorBytes (permP ctx.cols (xorBytes ctx.state M)) (permQ ctx.cols M))
        ctx.state := by
  have hMne : M ≠ [] := by
    intro h
    rw [h] at hM
    simp at hM
    omega
  have hmod : M.length % (8 * ctx.cols) = 0 := by
    rw [hM]
    exact Nat.mod_self _
  simp only [updateBytes, hbuf, List.nil_append, hmod, Nat.sub_zero,
    List.take_length]
  rw [foldBlocks_step ctx.cols ctx.state M hMne hc,
    List.take_of_length_le (le_of_eq hM),
    List.drop_eq_nil_of_le (le_of_eq hM), foldBlocks_nil]
  rfl

/-- C1 witness: the theorem applied to a concrete initialized context with
a 64-byte all-fives state and a concrete 64-byte block. -/
theorem C1_compression_feed_forward_witness :
    (⟨KupynaStatus.initialized, 32, 8, List.replicate 64 5, [], 0⟩ :
        KupynaCtx).status = KupynaStatus.initialized ∧
    (⟨KupynaStatus.initialized, 32, 8, List.replicate 64 5, [], 0⟩ :
        KupynaCtx).buffer = [] ∧
    (⟨KupynaStatus.initialized, 32, 8, List.replicate 64 5, [], 0⟩ :
        KupynaCtx).cols ≠ 0 ∧
    (List.replicate 64 3).length =
      8 * (⟨KupynaStatus.initialized, 32, 8, List.replicate 64 5, [], 0⟩ :
        KupynaCtx).cols ∧
    (updateBytes
        ⟨KupynaStatus.initialized, 32, 8, List.replicate 64 5, [], 0⟩
        (List.replicate 64 3)).state =
      xorBytes
        (xorBytes
          (permP 8 (xorBytes (List.replicate 64 5) (List.replicate 64 3)))
          (permQ 8 (List.replicate 64 3)))
        (List.replicate 64 5) :=
  ⟨rfl, rfl, by decide, by decide,
    C1_compression_feed_forward
      ⟨KupynaStatus.initialized, 32, 8, List.replicate 64 5, [], 0⟩
      (List.replicate 64 3) rfl rfl (by decide) (by decide)⟩

/-- C2: for every byte sequence `m`, every digest width in {32, 48, 64} and
every splitting of `m` into non-empty pieces, initializing a context,
feeding the pieces with one `update` each, in order, and finalizing yields
exactly the one-shot result of `kupyna_hash` on `m`. -/
theorem C2_chunk_invariance (w : Nat) (pieces : List (List Nat))
    (m buf : List Nat)
    (hw : w = 32 ∨ w = 48 ∨ w = 64)
    (_hne : ∀ p ∈ pieces, p ≠ [])
    (hjoin : pieces.flatten = m) :
    streamHash w pieces buf = kupyna_hash m w buf := by
  subst hjoin
  have h2 : (kupyna_init (some kupyna_alloc) w).2 = some (ctxOf w []) := by
    rw [kupyna_init_valid kupyna_alloc w hw]
  simp only [streamHash, h2, foldl_update_ctxOf w pieces [], List.nil_append,
    kupyna_final_ctxOf_fst, kupyna_final_ctxOf_out]
  simp [kupyna_hash, hw]

/-- C2 witness: the theorem applied to the concrete message `[1, 2, 3]`
split into the non-empty pieces `[1]` and `[2, 3]` at width 32. -/
theorem C2_chunk_invariance_witness :
    ((32 : Nat) = 32 ∨ (32 : Nat) = 48 ∨ (32 : Nat) = 64) ∧
    (∀ p ∈ [[1], [2, 3]], p ≠ ([] : List Nat)) ∧
    ([[1], [2, 3]] : List (List Nat)).flatten = [1, 2, 3] ∧
    streamHash 32 [[1], [2, 3]] [9, 9] = kupyna_hash [1, 2, 3] 32 [9, 9] :=
  ⟨by decide, by decide, by decide,
    C2_chunk_invariance 32 [[1], [2, 3]] [1, 2, 3] [9, 9] (by decide)
      (by decide) (by decide)⟩

/-- C3: the one-shot `kupyna_hash` returns the same result code and writes
the same bytes to the caller's buffer as the composed sequence
`alloc; init(width); update(data); final(out); free`, for every input,
every width, and every initial buffer content; neither side exposes any
context, so no partial context is observable on success or failure. -/
theorem C3_one_shot_equals_composed (data : List Nat) (w : Nat)
    (buf : List Nat) :
    kupyna_hash data w buf = composedHash data w buf :=
  kupyna_hash_eq_composedHash data w buf

/-- C6: initializing with a width outside {32, 48, 64} fails with the
invalid-configuration code and returns the context unchanged (hence still
uninitialized), and the same context still accepts any subsequent
initialize at a valid width. -/
theorem C6_init_invalid_width (ctx : KupynaCtx) (w : Nat)
    (hctx : ctx.status = KupynaStatus.uninitialized)
    (hw : ¬(w = 32 ∨ w = 48 ∨ w = 64)) :
    kupyna_init (some ctx) w = (KUPYNA_ERROR_INVALID_LEN, some ctx) ∧
    ctx.status = KupynaStatus.uninitialized ∧
    (∀ w2, (w2 = 32 ∨ w2 = 48 ∨ w2 = 64) →
      kupyna_init (some ctx) w2 = (KUPYNA_OK, some (ctxOf w2 []))) := by
  exact ⟨by simp [kupyna_init, hw], hctx,
    fun w2 hw2 => kupyna_init_valid ctx w2 hw2⟩

/-- C6 witness: the theorem applied to a freshly allocated context and the
invalid width 16. -/
theorem C6_init_invalid_width_witness :
    kupyna_alloc.status = KupynaStatus.uninitialized ∧
    ¬((16 : Nat) = 32 ∨ (16 : Nat) = 48 ∨ (16 : Nat) = 64) ∧
    kupyna_init (some kupyna_alloc) 16 =
      (KUPYNA_ERROR_INVALID_LEN, some kupyna_alloc) :=
  ⟨rfl, by decide,
    (C6_init_invalid_width kupyna_alloc 16 rfl (by decide)).1⟩

/-- C7: finalizing a never-initialized context fails with the
invalid-state code and returns the caller's buffer byte-for-byte
unchanged. -/
theorem C7_final_never_initialized (ctx : KupynaCtx) (buf : List Nat)
    (hctx : ctx.status = KupynaStatus.uninitialized) :
    kupyna_final (some ctx) buf = (KUPYNA_ERROR_NOT_INIT, some ctx, buf) := by
  have hne : ¬ ctx.status = KupynaStatus.initialized := by simp [hctx]
  simp [kupyna_final, hne]

/-- C7 witness: the theorem applied to a freshly allocated context and a
concrete output buffer. -/
theorem C7_final_never_initialized_witness :
    kupyna_alloc.status = KupynaStatus.uninitialized ∧
    kupyna_final (some kupyna_alloc) [4, 4, 4] =
      (KUPYNA_ERROR_NOT_INIT, some kupyna_alloc, [4, 4, 4]) :=
  ⟨rfl, C7_final_never_initialized kupyna_alloc [4, 4, 4] rfl⟩

/-- C8: hashing the same message at the same valid width through two
separate runs — one full composed alloc/init/update/final sequence and one
one-shot call, with unrelated output buffers — returns the same code and
the same digest bytes. -/
theorem C8_determinism (m : List Nat) (w : Nat) (buf1 buf2 : List Nat)
    (hw : w = 32 ∨ w = 48 ∨ w = 64) :
    (composedHash m w buf1).1 = (kupyna_hash m w buf2).1 ∧
    (composedHash m w buf1).2.take w = (kupyna_hash m w buf2).2.take w := by
  rw [← kupyna_hash_eq_composedHash]
  have hlen := length_kupynaDigest w hw m
  have hx : kupyna_hash m w buf1 = (KUPYNA_OK, kupynaDigest w m ++ buf1.drop w) := by
    simp [kupyna_hash, hw]
  have hy : kupyna_hash m w buf2 = (KUPYNA_OK, kupynaDigest w m ++ buf2.drop w) := by
    simp [kupyna_hash, hw]
  rw [hx, hy]
  exact ⟨rfl, by simp [List.take_left' hlen]⟩

/-- C8 witness: the theorem applied to the concrete message `[7]` at width
32 with two different prior buffer contents. -/
theorem C8_determinism_witness :
    ((32 : Nat) = 32 ∨ (32 : Nat) = 48 ∨ (32 : Nat) = 64) ∧
    (composedHash [7] 32 []).1 = (kupyna_hash [7] 32 [1, 2]).1 ∧
    (composedHash [7] 32 []).2.take 32 = (kupyna_hash [7] 32 [1, 2]).2.take 32 :=
  ⟨by decide,
    (C8_determinism [7] 32 [] [1, 2] (by decide)).1,
    (C8_determinism [7] 32 [] [1, 2] (by decide)).2⟩

theorem padTail_zero_pending (cols L : Nat) (hc : cols = 8 ∨ cols = 16) :
    padTail cols L 0 =
      0x80 :: List.replicate (8 * cols - 1 - cols) 0 ++ lengthField cols L ∧
    (padTail cols L 0).length = 8 * cols := by
  rcases hc with rfl | rfl <;>
    exact ⟨by norm_num [padTail], by norm_num [padTail, lengthField]⟩

/-- C4: when the absorbed stream length is an exact multiple of the block
size (64 bytes on the small state, 128 on the large), the pending buffer is
empty and finalization still pads: the 0x80 marker byte and the bit-length
field form an entirely new full block, and the final state folds exactly
that one extra block through the compression function. -/
theorem C4_padding_never_omitted (w : Nat) (st : List Nat)
    (_hw : w = 32 ∨ w = 48 ∨ w = 64)
    (hlen : st.length % (8 * colsFor w) = 0) :
    (ctxOf w st).buffer = [] ∧
    padTail (colsFor w) st.length 0 =
      0x80 :: List.replicate (8 * colsFor w - 1 - colsFor w) 0 ++
        lengthField (colsFor w) st.length ∧
    (padTail (colsFor w) st.length 0).length = 8 * colsFor w ∧
    finalizeCtx (ctxOf w st) =
      List.take w
        (xorBytes
          (permP (colsFor w)
            (compress (colsFor w) (ctxOf w st).state
              (padTail (colsFor w) st.length 0)))
          (compress (colsFor w) (ctxOf w st).state
            (padTail (colsFor w) st.length 0))) := by
  have hbs : 0 < 8 * colsFor w := bs_pos w
  have hpt := padTail_zero_pending (colsFor w) st.length (colsFor_cases w)
  have hbuf : (ctxOf w st).buffer = [] := by
    simp only [ctxOf, hlen, Nat.sub_zero, List.drop_length]
  refine ⟨hbuf, hpt.1, hpt.2, ?_⟩
  have htot : (ctxOf w st).total = st.length := rfl
  have hcols2 : (ctxOf w st).cols = colsFor w := rfl
  have hhl : (ctxOf w st).hash_len = w := rfl
  have hptne : padTail (colsFor w) st.length 0 ≠ [] := by
    rw [hpt.1]
    simp
  unfold finalizeCtx
  rw [hbuf, htot, hcols2, hhl]
  simp only [List.nil_append, List.length_nil]
  rw [foldBlocks_step _ _ _ hptne (by omega),
    List.take_of_length_le (le_of_eq hpt.2),
    List.drop_eq_nil_of_le (le_of_eq hpt.2), foldBlocks_nil]

/-- C4 witness: the theorem applied at width 32 to the empty stream, whose
length 0 is a multiple of the 64-byte block size. -/
theorem C4_padding_never_omitted_witness :
    ((32 : Nat) = 32 ∨ (32 : Nat) = 48 ∨ (32 : Nat) = 64) ∧
    (List.length ([] : List Nat)) % (8 * colsFor 32) = 0 ∧
    (ctxOf 32 []).buffer = [] ∧
    (padTail (colsFor 32) (List.length ([] : List Nat)) 0).length =
      8 * colsFor 32 :=
  ⟨by decide, by decide,
    (C4_padding_never_omitted 32 [] (by decide) (by decide)).1,
    (C4_padding_never_omitted 32 [] (by decide) (by decide)).2.2.1⟩

/-- C5: finalizing any initialized, well-shaped context succeeds, applies
exactly one output transformation `Ω(S) = P(S) xor S` to the state reached
after the padded tail has been compressed, and the digest written is
exactly the `hash_len` low-order bytes of the transformed state, where
`hash_len` is the width in {32, 48, 64} fixed at initialization. -/
theorem C5_output_transformation_and_width (ctx : KupynaCtx) (buf : List Nat)
    (hst : ctx.status = KupynaStatus.initialized)
    (hw : ctx.hash_len = 32 ∨ ctx.hash_len = 48 ∨ ctx.hash_len = 64)
    (hcols : ctx.cols = colsFor ctx.hash_len)
    (hstate : ctx.state.length = 8 * ctx.cols) :
    kupyna_final (some ctx) buf =
      (KUPYNA_OK,
        some ⟨KupynaStatus.finalized, ctx.hash_len, ctx.cols, ctx.state,
          ctx.buffer, ctx.total⟩,
        finalizeCtx ctx ++ buf.drop ctx.hash_len) ∧
    finalizeCtx ctx =
      List.take ctx.hash_len
        (xorBytes
          (permP ctx.cols
            (foldBlocks ctx.cols ctx.state
              (ctx.buffer ++ padTail ctx.cols ctx.total ctx.buffer.length)))
          (foldBlocks ctx.cols ctx.state
            (ctx.buffer ++ padTail ctx.cols ctx.total ctx.buffer.length))) ∧
    (finalizeCtx ctx).length = ctx.hash_len := by
  refine ⟨by simp [kupyna_final, hst], rfl, ?_⟩
  have hX := length_foldBlocks
    (ctx.buffer ++ padTail ctx.cols ctx.total ctx.buffer.length).length
    ctx.cols ctx.state _ rfl hstate
  simp only [finalizeCtx, List.length_take, length_xorBytes, length_permP, hX]
  rcases hw with h | h | h <;> simp [hcols, h, colsFor]

/-- C5 witness: the theorem applied to a concrete initialized context for
width 32 with the seeded 64-byte state and an empty buffer. -/
theorem C5_output_transformation_and_width_witness :
    (⟨KupynaStatus.initialized, 32, 8, List.replicate 64 0, [], 0⟩ :
        KupynaCtx).status = KupynaStatus.initialized ∧
    ((32 : Nat) = 32 ∨ (32 : Nat) = 48 ∨ (32 : Nat) = 64) ∧
    (8 : Nat) = colsFor 32 ∧
    (List.replicate 64 0).length = 8 * 8 ∧
    (finalizeCtx
      ⟨KupynaStatus.initialized, 32, 8, List.replicate 64 0, [], 0⟩).length =
      32 :=
  ⟨rfl, by decide, by decide, by decide,
    (C5_output_transformation_and_width
      ⟨KupynaStatus.initialized, 32, 8, List.replicate 64 0, [], 0⟩ []
      rfl (by decide) (by decide) (by decide)).2.2⟩

/-- C9: on both state shapes, the shift-rows layer is an information
preserving permutation of byte positions — applying shift-rows and then
its inverse reproduces every state exactly. -/
theorem C9_shift_rows_roundtrip (cols : Nat) (s : List Nat)
    (hc : cols = 8 ∨ cols = 16) (hs : s.length = 8 * cols) :
    shiftRowsInv cols (shiftRows cols s) = s := by
  apply List.ext_getElem
  · simp [shiftRowsInv, hs]
  · intro i h1 h2
    have hi : i < 8 * cols := by simpa [shiftRowsInv] using h1
    have hfin : ∀ E : Nat, E = i → s.getD E 0 = s[i] := by
      intro E hE
      subst hE
      simp [List.getElem?_eq_getElem h2]
    simp only [shiftRowsInv, shiftRows, List.getElem_map, List.getElem_range,
      getD_range_map]
    rcases hc with rfl | rfl
    · have hoff : ∀ r : Nat, shiftOffset 8 r = r := by
        intro r
        simp [shiftOffset]
      simp only [hoff]
      rw [if_pos (by omega)]
      apply hfin
      omega
    · have hJ8 : ∀ C : Nat, (8 * C + i % 8) % 8 = i % 8 := by
        intro C
        omega
      by_cases h7 : i % 8 = 7
      · have hoff : shiftOffset 16 (i % 8) = 11 := by
          simp [shiftOffset, h7]
        rw [hoff, hJ8, hoff, if_pos (by omega)]
        apply hfin
        have hdiv : (8 * ((i / 8 + (16 - 11 % 16)) % 16) + i % 8) / 8
            = (i / 8 + (16 - 11 % 16)) % 16 := by omega
        rw [hdiv]
        omega
      · have hoff : shiftOffset 16 (i % 8) = i % 8 := by
          simp [shiftOffset, h7]
        rw [hoff, hJ8, hoff, if_pos (by omega)]
        apply hfin
        have hdiv : (8 * ((i / 8 + (16 - i % 8 % 16)) % 16) + i % 8) / 8
            = (i / 8 + (16 - i % 8 % 16)) % 16 := by omega
        rw [hdiv]
        omega

/-- C9 witness: the theorem applied to a concrete 64-byte state on the
small shape. -/
theorem C9_shift_rows_roundtrip_witness :
    ((8 : Nat) = 8 ∨ (8 : Nat) = 16) ∧
    (List.range 64).length = 8 * 8 ∧
    shiftRowsInv 8 (shiftRows 8 (List.range 64)) = List.range 64 :=
  ⟨by decide, by decide,
    C9_shift_rows_roundtrip 8 (List.range 64) (by decide) (by decide)⟩

/-- C10: every fallible public operation — init, update, final, one-shot
hash — returns one of the five fixed codes 0 (`KUPYNA_OK`), −1, −2, −3, −4,
and the returned code is either 0 (success) or strictly negative, so the
sign alone separates success from every failure. -/
theorem C10_return_code_partition :
    (∀ (octx : Option KupynaCtx) (w : Nat),
      ((kupyna_init octx w).1 = KUPYNA_OK ∨
        (kupyna_init octx w).1 = KUPYNA_ERROR_NULL_CTX ∨
        (kupyna_init octx w).1 = KUPYNA_ERROR_INVALID_LEN ∨
        (kupyna_init octx w).1 = KUPYNA_ERROR_NOT_INIT ∨
        (kupyna_init octx w).1 = KUPYNA_ERROR_ALLOC) ∧
      ((kupyna_init octx w).1 = KUPYNA_OK ∨ (kupyna_init octx w).1 < 0)) ∧
    (∀ (octx : Option KupynaCtx) (d : List Nat),
      ((kupyna_update octx d).1 = KUPYNA_OK ∨
        (kupyna_update octx d).1 = KUPYNA_ERROR_NULL_CTX ∨
        (kupyna_update octx d).1 = KUPYNA_ERROR_INVALID_LEN ∨
        (kupyna_update octx d).1 = KUPYNA_ERROR_NOT_INIT ∨
        (kupyna_update octx d).1 = KUPYNA_ERROR_ALLOC) ∧
      ((kupyna_update octx d).1 = KUPYNA_OK ∨ (kupyna_update octx d).1 < 0)) ∧
    (∀ (octx : Option KupynaCtx) (buf : List Nat),
      ((kupyna_final octx buf).1 = KUPYNA_OK ∨
        (kupyna_final octx buf).1 = KUPYNA_ERROR_NULL_CTX ∨
        (kupyna_final octx buf).1 = KUPYNA_ERROR_INVALID_LEN ∨
        (kupyna_final octx buf).1 = KUPYNA_ERROR_NOT_INIT ∨
        (kupyna_final octx buf).1 = KUPYNA_ERROR_ALLOC) ∧
      ((kupyna_final octx buf).1 = KUPYNA_OK ∨ (kupyna_final octx buf).1 < 0)) ∧
    (∀ (data buf : List Nat) (w : Nat),
      ((kupyna_hash data w buf).1 = KUPYNA_OK ∨
        (kupyna_hash data w buf).1 = KUPYNA_ERROR_NULL_CTX ∨
        (kupyna_hash data w buf).1 = KUPYNA_ERROR_INVALID_LEN ∨
        (kupyna_hash data w buf).1 = KUPYNA_ERROR_NOT_INIT ∨
        (kupyna_hash data w buf).1 = KUPYNA_ERROR_ALLOC) ∧
      ((kupyna_hash data w buf).1 = KUPYNA_OK ∨ (kupyna_hash data w buf).1 < 0)) := by
  refine ⟨?_, ?_, ?_, ?_⟩
  · intro octx w
    cases octx with
    | none =>
        simp only [kupyna_init]
        decide
    | some c =>
        by_cases hw : w = 32 ∨ w = 48 ∨ w = 64
        · simp only [kupyna_init, if_pos hw]
          decide
        · simp only [kupyna_init, if_neg hw]
          decide
  · intro octx d
    cases octx with
    | none =>
        simp only [kupyna_update]
        decide
    | some c =>
        by_cases hst : c.status = KupynaStatus.initialized
        · simp only [kupyna_update, if_pos hst]
          decide
        · simp only [kupyna_update, if_neg hst]
          decide
  · intro octx buf
    cases octx with
    | none =>
        simp only [kupyna_final]
        decide
    | some c =>
        by_cases hst : c.status = KupynaStatus.initialized
        · simp only [kupyna_final, if_pos hst]
          decide
        · simp only [kupyna_final, if_neg hst]
          decide
  · intro data buf w
    by_cases hw : w = 32 ∨ w = 48 ∨ w = 64
    · simp only [kupyna_hash, if_pos hw]
      decide
    · simp only [kupyna_hash, if_neg hw]
      decide

end Kupyna
